import Mathlib

/-!
Verification of the `Queue<T>` container from `src/index.ts` of
`phosphor-queue`.

The queue is a singly linked list of nodes with cached `_front` / `_back`
pointers and a cached `_size`.  We model the mutable node store as a list
`heap : List (Node T)`; a node reference (`IQueueLink<T>` in the source)
is an index into `heap`, and the `null` reference is `none : Option Nat`.
`push` allocates by appending to `heap`; field assignments like
`prev.next = link` become `setNext`.  Loops that walk `next` pointers are
written with explicit fuel (`heap.length` bounds the length of any
acyclic chain); fuel exhaustion and dangling-pointer branches are
unreachable for well-formed queues (`WF` below), which is how every
theorem is stated.  `_size` is an `Int`, matching the JavaScript number
arithmetic (`this._size--` can in principle go negative).
-/

namespace PhosphorQueue

/-- Source `IQueueLink<T>`: a link node in a queue, holding a value and the next
reference. -/
structure Node (T : Type) where
  next : Option Nat
  value : T
deriving Repr, DecidableEq

/-- The private state of a `Queue<T>`: the node store plus the fields
`_size`, `_front`, `_back` of the class. -/
structure Queue (T : Type) where
  heap : List (Node T)
  _size : Int
  _front : Option Nat
  _back : Option Nat
deriving Repr, DecidableEq

variable {T U : Type}

/-- Assignment `node.next = nxt` for the node at index `p` of the store. -/
def setNext (h : List (Node T)) (p : Nat) (nxt : Option Nat) : List (Node T) :=
  match h[p]? with
  | Option.some nd => h.set p { nd with next := nxt }
  | Option.none => h

/-- Read `node.next` for the node at index `i` (dangling reads give `none`;
they never happen on well-formed queues). -/
def nextOf (h : List (Node T)) (i : Nat) : Option Nat :=
  match h[i]? with
  | Option.some nd => nd.next
  | Option.none => Option.none

/-- Read `node.value` for the node at index `i`. -/
def nodeVal (h : List (Node T)) (i : Nat) : Option T :=
  (h[i]?).map Node.value

/-- Source `new Queue<T>()` with no items: all fields at their initializers. -/
def emptyQueue : Queue T :=
  { heap := [], _size := 0, _front := Option.none, _back := Option.none }

/-- Source `push(value)`: allocate a link, attach it after `_back` (or make it
both `_front` and `_back` when the queue is empty), increment `_size`. -/
def push (q : Queue T) (value : T) : Queue T :=
  let linkId := q.heap.length
  let h1 := q.heap ++ [{ next := Option.none, value := value }]
  match q._back with
  | Option.none =>
    { heap := h1, _size := q._size + 1,
      _front := Option.some linkId, _back := Option.some linkId }
  | Option.some b =>
    { heap := setNext h1 b (Option.some linkId), _size := q._size + 1,
      _front := q._front, _back := Option.some linkId }

/-- Source `new Queue<T>(items)`: pushes each initial item in order. -/
def ofList (items : List T) : Queue T := items.foldl push emptyQueue

/-- The `size` getter. -/
def size (q : Queue T) : Int := q._size

/-- The `empty` getter. -/
def emptyB (q : Queue T) : Bool := q._size == 0

/-- The `front` getter: `_front.value`, or `undefined` (`none`) when
`_front` is null. -/
def front (q : Queue T) : Option T :=
  match q._front with
  | Option.none => Option.none
  | Option.some i => nodeVal q.heap i

/-- The `back` getter: `_back.value`, or `undefined` (`none`) when
`_back` is null. -/
def back (q : Queue T) : Option T :=
  match q._back with
  | Option.none => Option.none
  | Option.some i => nodeVal q.heap i

/-- Source `pop()`: detach the front link and return its value, `undefined`
(`none`) when the queue is empty. -/
def pop (q : Queue T) : Queue T × Option T :=
  match q._front with
  | Option.none => (q, Option.none)
  | Option.some linkId =>
    match q.heap[linkId]? with
    | Option.none => (q, Option.none)
    | Option.some link =>
      match link.next with
      | Option.none =>
        ({ q with _front := Option.none, _back := Option.none,
                  _size := q._size - 1 }, Option.some link.value)
      | Option.some j =>
        ({ q with _front := Option.some j, _size := q._size - 1 },
         Option.some link.value)

/-- Source `clear()`: reset `_size`, `_front`, `_back` (nodes become garbage in
the store, as in a garbage-collected runtime). -/
def clear (q : Queue T) : Queue T :=
  { q with _size := 0, _front := Option.none, _back := Option.none }

/-- The `while` loop of `remove(value)`.  State threaded through the loop:
store, `_size`, `_front`, `_back`, local `prev`, local `link`.  Returns the
updated state and the method's return value. -/
def removeLoop [BEq T] (x : T) :
    Nat → List (Node T) → Int → Option Nat → Option Nat → Option Nat → Option Nat →
    List (Node T) × Int × Option Nat × Option Nat × Bool
  | 0, h, sz, fr, bk, _, _ => (h, sz, fr, bk, false)
  | _ + 1, h, sz, fr, bk, _, Option.none => (h, sz, fr, bk, false)
  | fuel + 1, h, sz, fr, bk, prev, Option.some i =>
    match h[i]? with
    | Option.none => (h, sz, fr, bk, false)
    | Option.some link =>
      if link.value == x then
        match prev with
        | Option.none =>
          -- this._front = link.next; if (link.next === null) this._back = prev
          (h, sz - 1, link.next,
           if link.next = Option.none then prev else bk, true)
        | Option.some p =>
          -- prev.next = link.next; if (link.next === null) this._back = prev
          -- (link.next is re-read from the store after the write to prev)
          let h2 := setNext h p link.next
          (h2, sz - 1, fr,
           if nextOf h2 i = Option.none then prev else bk, true)
      else
        removeLoop x fuel h sz fr bk (Option.some i) link.next

/-- Source `remove(value)`: unlink the first link whose value is `=== value`. -/
def remove [BEq T] (q : Queue T) (x : T) : Queue T × Bool :=
  match removeLoop x q.heap.length q.heap q._size q._front q._back Option.none q._front with
  | (h, sz, fr, bk, r) =>
    ({ heap := h, _size := sz, _front := fr, _back := bk }, r)

/-- The `while` loop of `removeAll(value)`.  State threaded through:
store, `_size`, `_front`, local `count`, local `prev`, local `link`. -/
def removeAllLoop [BEq T] (x : T) :
    Nat → List (Node T) → Int → Option Nat → Nat → Option Nat → Option Nat →
    List (Node T) × Int × Option Nat × Nat × Option Nat
  | 0, h, sz, fr, cnt, prev, _ => (h, sz, fr, cnt, prev)
  | _ + 1, h, sz, fr, cnt, prev, Option.none => (h, sz, fr, cnt, prev)
  | fuel + 1, h, sz, fr, cnt, prev, Option.some i =>
    match h[i]? with
    | Option.none => (h, sz, fr, cnt, prev)
    | Option.some link =>
      if link.value == x then
        -- count++; this._size--
        removeAllLoop x fuel h (sz - 1) fr (cnt + 1) prev link.next
      else
        match prev with
        | Option.none =>
          -- this._front = link; prev = link
          removeAllLoop x fuel h sz (Option.some i) cnt (Option.some i) link.next
        | Option.some p =>
          -- prev.next = link; prev = link
          -- (link.next is re-read from the store after the write to prev)
          let h2 := setNext h p (Option.some i)
          removeAllLoop x fuel h2 sz fr cnt (Option.some i) (nextOf h2 i)

/-- Source `removeAll(value)`: single relinking pass dropping every link whose
value is `=== value`; returns the number removed. -/
def removeAll [BEq T] (q : Queue T) (x : T) : Queue T × Nat :=
  match removeAllLoop x q.heap.length q.heap q._size q._front 0 Option.none q._front with
  | (h, sz, fr, cnt, prev) =>
    match prev with
    | Option.none =>
      ({ heap := h, _size := sz, _front := Option.none, _back := Option.none }, cnt)
    | Option.some p =>
      -- prev.next = null; this._back = prev
      ({ heap := setNext h p Option.none, _size := sz, _front := fr,
         _back := Option.some p }, cnt)

/-- The traversal of `toArray()`: values from a start reference, in chain
order. -/
def listFrom (h : List (Node T)) : Nat → Option Nat → List T
  | 0, _ => []
  | _ + 1, Option.none => []
  | fuel + 1, Option.some i =>
    match h[i]? with
    | Option.none => []
    | Option.some nd => nd.value :: listFrom h fuel nd.next

/-- Source `toArray()`: all values front to back. -/
def toArray (q : Queue T) : List T := listFrom q.heap q.heap.length q._front

/-- The loop of `some(pred)`, threading the node store (which it never
writes). -/
def someLoop (p : T → Nat → Bool) :
    Nat → List (Node T) → Nat → Option Nat → List (Node T) × Bool
  | 0, h, _, _ => (h, false)
  | _ + 1, h, _, Option.none => (h, false)
  | fuel + 1, h, i, Option.some n =>
    match h[n]? with
    | Option.none => (h, false)
    | Option.some nd =>
      if p nd.value i then (h, true) else someLoop p fuel h (i + 1) nd.next

/-- Source `some(pred)`: the method call, returning the resulting queue state and
the boolean result. -/
def someRun (q : Queue T) (p : T → Nat → Bool) : Queue T × Bool :=
  match someLoop p q.heap.length q.heap 0 q._front with
  | (h, r) => ({ q with heap := h }, r)

/-- The loop of `every(pred)`, threading the node store. -/
def everyLoop (p : T → Nat → Bool) :
    Nat → List (Node T) → Nat → Option Nat → List (Node T) × Bool
  | 0, h, _, _ => (h, true)
  | _ + 1, h, _, Option.none => (h, true)
  | fuel + 1, h, i, Option.some n =>
    match h[n]? with
    | Option.none => (h, true)
    | Option.some nd =>
      if p nd.value i then everyLoop p fuel h (i + 1) nd.next else (h, false)

/-- Source `every(pred)`: the method call. -/
def everyRun (q : Queue T) (p : T → Nat → Bool) : Queue T × Bool :=
  match everyLoop p q.heap.length q.heap 0 q._front with
  | (h, r) => ({ q with heap := h }, r)

/-- The loop of `filter(pred)`. -/
def filterLoop (p : T → Nat → Bool) :
    Nat → List (Node T) → Nat → Option Nat → List T
  | 0, _, _, _ => []
  | _ + 1, _, _, Option.none => []
  | fuel + 1, h, i, Option.some n =>
    match h[n]? with
    | Option.none => []
    | Option.some nd =>
      if p nd.value i then nd.value :: filterLoop p fuel h (i + 1) nd.next
      else filterLoop p fuel h (i + 1) nd.next

/-- Source `filter(pred)`: the values passing the predicate, in order. -/
def filterQ (q : Queue T) (p : T → Nat → Bool) : List T :=
  filterLoop p q.heap.length q.heap 0 q._front

/-- The loop of `forEach(callback)`, threading the node store.  The
callback's `undefined` result is `none`. -/
def forEachLoop (f : T → Nat → Option U) :
    Nat → List (Node T) → Nat → Option Nat → List (Node T) × Option U
  | 0, h, _, _ => (h, Option.none)
  | _ + 1, h, _, Option.none => (h, Option.none)
  | fuel + 1, h, i, Option.some n =>
    match h[n]? with
    | Option.none => (h, Option.none)
    | Option.some nd =>
      match f nd.value i with
      | Option.some r => (h, Option.some r)
      | Option.none => forEachLoop f fuel h (i + 1) nd.next

/-- Source `forEach(callback)`: the method call, returning the resulting queue
state and the first non-`undefined` callback result. -/
def forEachRun (q : Queue T) (f : T → Nat → Option U) : Queue T × Option U :=
  match forEachLoop f q.heap.length q.heap 0 q._front with
  | (h, r) => ({ q with heap := h }, r)

/-- Calling `pop()` `n` times, collecting the returned values until an
`undefined` result. -/
def drain : Nat → Queue T → List T
  | 0, _ => []
  | n + 1, q =>
    match pop q with
    | (q2, Option.some v) => v :: drain n q2
    | (_, Option.none) => []

/-- The chain predicate: starting from reference `st`, following `next`
visits exactly the nodes `ids` in order and then the reference `stop`. -/
def isChainSeg (h : List (Node T)) : Option Nat → List Nat → Option Nat → Bool
  | st, [], stop => st == stop
  | st, i :: rest, stop =>
    st == Option.some i &&
      match h[i]? with
      | Option.none => false
      | Option.some nd => isChainSeg h nd.next rest stop

/-- Witness list `ids` is the exact chain of the queue: duplicate-free, running from
`_front` to null, with `_size` its length and `_back` its last entry. -/
def Rep (q : Queue T) (ids : List Nat) : Prop :=
  isChainSeg q.heap q._front ids Option.none = true ∧
  ids.Nodup ∧ q._size = (ids.length : Int) ∧ q._back = ids.getLast?

/-- Well-formedness of a queue state: some index list represents it. -/
def WF (q : Queue T) : Prop := ∃ ids : List Nat, Rep q ids

/-- The values stored at a list of node indices. -/
def valsOf (h : List (Node T)) (ids : List Nat) : List T :=
  ids.filterMap (nodeVal h)

/-! ### Store lemmas -/

theorem length_setNext (h : List (Node T)) (p : Nat) (nxt : Option Nat) :
    (setNext h p nxt).length = h.length := by
  unfold setNext
  cases hx : h[p]? <;> simp

theorem getElem?_setNext_ne {h : List (Node T)} {p i : Nat} (hne : i ≠ p)
    (nxt : Option Nat) : (setNext h p nxt)[i]? = h[i]? := by
  unfold setNext
  cases hx : h[p]? with
  | none => rfl
  | some nd => exact List.getElem?_set_ne (Ne.symm hne)

theorem getElem?_setNext_self {h : List (Node T)} {p : Nat} {nd : Node T}
    (hx : h[p]? = Option.some nd) (nxt : Option Nat) :
    (setNext h p nxt)[p]? = Option.some { nd with next := nxt } := by
  rcases List.getElem?_eq_some_iff.1 hx with ⟨hlt, _⟩
  unfold setNext
  rw [hx]
  exact List.getElem?_set_self hlt

theorem nodeVal_setNext (h : List (Node T)) (p : Nat) (nxt : Option Nat)
    (i : Nat) : nodeVal (setNext h p nxt) i = nodeVal h i := by
  by_cases hip : i = p
  · subst hip
    cases hx : h[i]? with
    | none => simp [nodeVal, setNext, hx]
    | some nd => simp [nodeVal, getElem?_setNext_self hx, hx]
  · simp [nodeVal, getElem?_setNext_ne hip]

/-! ### Chain lemmas -/

theorem isChainSeg_nil {h : List (Node T)} {st stop : Option Nat} :
    isChainSeg h st [] stop = true ↔ st = stop := by
  simp [isChainSeg]

theorem isChainSeg_cons {h : List (Node T)} {st stop : Option Nat} {i : Nat}
    {rest : List Nat} :
    isChainSeg h st (i :: rest) stop = true ↔
      st = Option.some i ∧
        ∃ nd, h[i]? = Option.some nd ∧ isChainSeg h nd.next rest stop = true := by
  cases hx : h[i]? with
  | none => simp [isChainSeg, hx]
  | some nd => simp [isChainSeg, hx]

theorem isChainSeg_congr {h h' : List (Node T)} {ids : List Nat}
    (hag : ∀ i ∈ ids, h'[i]? = h[i]?) (st stop : Option Nat) :
    isChainSeg h' st ids stop = isChainSeg h st ids stop := by
  induction ids generalizing st with
  | nil => rfl
  | cons a rest ih =>
    have ha : h'[a]? = h[a]? := hag a (by simp)
    have hrest : ∀ j ∈ rest, h'[j]? = h[j]? := fun j hj => hag j (by simp [hj])
    simp only [isChainSeg, ha]
    cases h[a]? with
    | none => rfl
    | some nd => simp [ih hrest]

theorem isChainSeg_valid {h : List (Node T)} {st stop : Option Nat}
    {ids : List Nat} (hc : isChainSeg h st ids stop = true) :
    ∀ i ∈ ids, (h[i]?).isSome := by
  induction ids generalizing st with
  | nil => simp
  | cons a rest ih =>
    rcases isChainSeg_cons.1 hc with ⟨_, nd, hnd, hrest⟩
    intro i hi
    rcases List.mem_cons.1 hi with h1 | h2
    · subst h1; simp [hnd]
    · exact ih hrest i h2

theorem isChainSeg_append {h : List (Node T)} {l1 l2 : List Nat}
    {st stop : Option Nat} :
    isChainSeg h st (l1 ++ l2) stop = true ↔
      ∃ mid, isChainSeg h st l1 mid = true ∧ isChainSeg h mid l2 stop = true := by
  induction l1 generalizing st with
  | nil =>
    constructor
    · intro hx; exact ⟨st, isChainSeg_nil.2 rfl, by simpa using hx⟩
    · rintro ⟨mid, h1, h2⟩
      have := isChainSeg_nil.1 h1
      subst this
      simpa using h2
  | cons a rest ih =>
    simp only [List.cons_append, isChainSeg_cons, ih]
    constructor
    · rintro ⟨hst, nd, hnd, mid, h1, h2⟩
      exact ⟨mid, ⟨hst, nd, hnd, h1⟩, h2⟩
    · rintro ⟨mid, ⟨hst, nd, hnd, h1⟩, h2⟩
      exact ⟨hst, nd, hnd, mid, h1, h2⟩

theorem chain_length_le {h : List (Node T)} {st stop : Option Nat}
    {ids : List Nat} (hc : isChainSeg h st ids stop = true)
    (hnd : ids.Nodup) : ids.length ≤ h.length := by
  have hsub : ids ⊆ List.range h.length := by
    intro i hi
    have hs := isChainSeg_valid hc i hi
    rw [List.mem_range]
    by_contra hlt
    rw [List.getElem?_eq_none (by omega)] at hs
    simp at hs
  simpa using (hnd.subperm hsub).length_le

/-! ### Value lemmas -/

@[simp] theorem valsOf_nil (h : List (Node T)) : valsOf h [] = [] := rfl

theorem valsOf_cons {h : List (Node T)} {i : Nat} {ids : List Nat}
    {nd : Node T} (hx : h[i]? = Option.some nd) :
    valsOf h (i :: ids) = nd.value :: valsOf h ids := by
  simp [valsOf, nodeVal, hx]

theorem valsOf_append (h : List (Node T)) (l1 l2 : List Nat) :
    valsOf h (l1 ++ l2) = valsOf h l1 ++ valsOf h l2 := by
  simp [valsOf]

theorem valsOf_congr {h h' : List (Node T)} {ids : List Nat}
    (hag : ∀ i ∈ ids, nodeVal h' i = nodeVal h i) :
    valsOf h' ids = valsOf h ids := by
  induction ids with
  | nil => rfl
  | cons a rest ih =>
    have ha := hag a (by simp)
    have hrest := fun j hj => hag j (List.mem_cons_of_mem _ hj)
    simp only [valsOf, List.filterMap_cons] at *
    rw [ha]
    cases nodeVal h a with
    | none => exact ih hrest
    | some v => rw [ih hrest]

theorem valsOf_length {h : List (Node T)} {ids : List Nat}
    (hv : ∀ i ∈ ids, (h[i]?).isSome) :
    (valsOf h ids).length = ids.length := by
  induction ids with
  | nil => rfl
  | cons a rest ih =>
    rcases Option.isSome_iff_exists.1 (hv a (by simp)) with ⟨nd, hnd⟩
    rw [valsOf_cons hnd]
    simp only [List.length_cons]
    rw [ih (fun j hj => hv j (List.mem_cons_of_mem _ hj))]

theorem valsOf_head? {h : List (Node T)} {ids : List Nat}
    (hv : ∀ i ∈ ids, (h[i]?).isSome) :
    (valsOf h ids).head? = ids.head?.bind (nodeVal h) := by
  cases ids with
  | nil => rfl
  | cons a rest =>
    rcases Option.isSome_iff_exists.1 (hv a (by simp)) with ⟨nd, hnd⟩
    rw [valsOf_cons hnd]
    simp [nodeVal, hnd]

theorem valsOf_getLast? {h : List (Node T)} {ids : List Nat}
    (hv : ∀ i ∈ ids, (h[i]?).isSome) :
    (valsOf h ids).getLast? = ids.getLast?.bind (nodeVal h) := by
  induction ids with
  | nil => rfl
  | cons a rest ih =>
    rcases Option.isSome_iff_exists.1 (hv a (by simp)) with ⟨nd, hnd⟩
    cases rest with
    | nil => simp [valsOf_cons hnd, nodeVal, hnd]
    | cons b rest2 =>
      have hv2 : ∀ i ∈ b :: rest2, (h[i]?).isSome :=
        fun j hj => hv j (List.mem_cons_of_mem _ hj)
      rcases Option.isSome_iff_exists.1 (hv2 b (by simp)) with ⟨nd2, hnd2⟩
      rw [valsOf_cons hnd, valsOf_cons hnd2, List.getLast?_cons_cons,
        List.getLast?_cons_cons, ← valsOf_cons hnd2, ih hv2]

theorem listFrom_eq_valsOf {h : List (Node T)} {st : Option Nat}
    {ids : List Nat} (hc : isChainSeg h st ids Option.none = true)
    {fuel : Nat} (hf : ids.length ≤ fuel) :
    listFrom h fuel st = valsOf h ids := by
  induction ids generalizing st fuel with
  | nil =>
    have := isChainSeg_nil.1 hc
    subst this
    cases fuel <;> rfl
  | cons a rest ih =>
    rcases isChainSeg_cons.1 hc with ⟨hst, nd, hnd, hrest⟩
    subst hst
    cases fuel with
    | zero => simp at hf
    | succ f =>
      simp only [listFrom, hnd]
      rw [valsOf_cons hnd, ih hrest (by simpa using hf)]

/-! ### Observables of a represented queue -/

theorem Rep.toArray_eq {q : Queue T} {ids : List Nat} (hr : Rep q ids) :
    toArray q = valsOf q.heap ids := by
  obtain ⟨hc, hnd, _, _⟩ := hr
  exact listFrom_eq_valsOf hc (chain_length_le hc hnd)

theorem Rep.length_toArray {q : Queue T} {ids : List Nat} (hr : Rep q ids) :
    (toArray q).length = ids.length := by
  rw [hr.toArray_eq]
  exact valsOf_length (isChainSeg_valid hr.1)

theorem Rep.size_eq {q : Queue T} {ids : List Nat} (hr : Rep q ids) :
    size q = ((toArray q).length : Int) := by
  rw [hr.length_toArray]
  exact hr.2.2.1

theorem Rep.front_eq {q : Queue T} {ids : List Nat} (hr : Rep q ids) :
    front q = (toArray q).head? := by
  obtain ⟨hc, hnd, hsz, hbk⟩ := hr
  cases ids with
  | nil =>
    have hf := isChainSeg_nil.1 hc
    simp [front, hf, Rep.toArray_eq ⟨hc, hnd, hsz, hbk⟩, valsOf_nil]
  | cons a rest =>
    rcases isChainSeg_cons.1 hc with ⟨hst, nd, hnd2, _⟩
    rw [Rep.toArray_eq ⟨hc, hnd, hsz, hbk⟩, valsOf_cons hnd2]
    simp [front, hst, nodeVal, hnd2]

theorem Rep.back_eq {q : Queue T} {ids : List Nat} (hr : Rep q ids) :
    back q = (toArray q).getLast? := by
  obtain ⟨hc, hnd, hsz, hbk⟩ := hr
  rw [Rep.toArray_eq ⟨hc, hnd, hsz, hbk⟩,
    valsOf_getLast? (isChainSeg_valid hc), ← hbk]
  cases hb : q._back with
  | none => simp [back, hb]
  | some b => simp [back, hb]

theorem chain_mem_lt {h : List (Node T)} {st stop : Option Nat}
    {ids : List Nat} (hc : isChainSeg h st ids stop = true) :
    ∀ i ∈ ids, i < h.length := by
  intro i hi
  have hs := isChainSeg_valid hc i hi
  by_contra hlt
  rw [List.getElem?_eq_none (by omega)] at hs
  simp at hs

/-! ### `push`, `pop`, `clear`, construction -/

theorem emptyQueue_rep : Rep (emptyQueue : Queue T) [] := by
  refine ⟨rfl, List.nodup_nil, rfl, rfl⟩

theorem push_rep {q : Queue T} {ids : List Nat} (hr : Rep q ids) (v : T) :
    Rep (push q v) (ids ++ [q.heap.length]) ∧
      toArray (push q v) = toArray q ++ [v] := by
  obtain ⟨hc, hnd, hsz, hbk⟩ := hr
  have hlt := chain_mem_lt hc
  have hn1 : ∀ i ∈ ids,
      (q.heap ++ [({ next := Option.none, value := v } : Node T)])[i]? = q.heap[i]? :=
    fun i hi => List.getElem?_append_left (hlt i hi)
  have hnn : (q.heap ++ [({ next := Option.none, value := v } : Node T)])[q.heap.length]? =
      Option.some { next := Option.none, value := v } :=
    List.getElem?_concat_length _ _
  cases hb : q._back with
  | none =>
    have hids : ids = [] := by
      rw [hb] at hbk
      exact List.getLast?_eq_none_iff.1 hbk.symm
    subst hids
    have hfr : q._front = Option.none := isChainSeg_nil.1 hc
    have hsz0 : q._size = 0 := by simpa using hsz
    have harr : toArray q = [] := by
      simpa using Rep.toArray_eq ⟨hc, List.nodup_nil, hsz, hbk⟩
    have hrep' : Rep (push q v) ([] ++ [q.heap.length]) := by
      refine ⟨?_, by simp, ?_, ?_⟩
      · simp only [List.nil_append, push, hb]
        rw [isChainSeg_cons]
        exact ⟨rfl, _, hnn, isChainSeg_nil.2 rfl⟩
      · simp [push, hb, hsz0]
      · simp [push, hb]
    refine ⟨hrep', ?_⟩
    rw [hrep'.toArray_eq, harr]
    simp only [push, hb, List.nil_append]
    simp [valsOf, nodeVal, hnn]
  | some b =>
    have hbl : ids.getLast? = Option.some b := by rw [hb] at hbk; exact hbk.symm
    rcases List.getLast?_eq_some_iff.1 hbl with ⟨init, hinit⟩
    have hblt : b < q.heap.length := hlt b (by rw [hinit]; simp)
    set nd0 : Node T := { next := Option.none, value := v } with hnd0
    set h1 := q.heap ++ [nd0] with hh1
    set n := q.heap.length with hn
    -- the original chain, moved into the extended store
    have hc1 : isChainSeg h1 q._front ids Option.none = true := by
      rw [isChainSeg_congr hn1]; exact hc
    -- decompose at the back node
    rw [hinit] at hc1
    rcases isChainSeg_append.1 hc1 with ⟨mid, hcinit, hclast⟩
    rcases isChainSeg_cons.1 hclast with ⟨hmid, ndb, hndb, hrest⟩
    have hndb_next : ndb.next = Option.none := isChainSeg_nil.1 hrest
    -- the store after `this._back.next = link`
    set h2 := setNext h1 b (Option.some n) with hh2
    have hbni : b ∉ init := by
      have hnd' := hnd
      rw [hinit, List.nodup_append] at hnd'
      intro hmem
      exact hnd'.2.2 hmem (by simp)
    have hag2 : ∀ i ∈ init, h2[i]? = h1[i]? := by
      intro i hi
      exact getElem?_setNext_ne (fun he => hbni (by rw [← he]; exact hi)) _
    have hcinit2 : isChainSeg h2 q._front init mid = true := by
      rw [isChainSeg_congr hag2]; exact hcinit
    have hgb2 : h2[b]? = Option.some { ndb with next := Option.some n } :=
      getElem?_setNext_self hndb _
    have hgn2 : h2[n]? = Option.some nd0 := by
      rw [getElem?_setNext_ne (by omega) _]
      exact hnn
    have hnmem : n ∉ ids := fun hmem => by have := hlt n hmem; omega
    have hchain2 : isChainSeg h2 q._front (ids ++ [n]) Option.none = true := by
      rw [hinit, List.append_assoc]
      apply isChainSeg_append.2
      refine ⟨mid, hcinit2, ?_⟩
      rw [show ([b] ++ [n] : List Nat) = b :: [n] from rfl, isChainSeg_cons]
      refine ⟨hmid, _, hgb2, ?_⟩
      rw [isChainSeg_cons]
      exact ⟨rfl, _, hgn2, isChainSeg_nil.2 rfl⟩
    have hrep' : Rep (push q v) (ids ++ [n]) := by
      refine ⟨?_, ?_, ?_, ?_⟩
      · simpa [push, hb] using hchain2
      · simpa [List.nodup_append] using ⟨hnd, hnmem⟩
      · simp [push, hb, hsz]
      · simp [push, hb]
    refine ⟨hrep', ?_⟩
    rw [hrep'.toArray_eq, Rep.toArray_eq ⟨hc, hnd, hsz, hbk⟩]
    have hq : (push q v).heap = h2 := by simp [push, hb]
    rw [hq, valsOf_append]
    have hvals : valsOf h2 ids = valsOf q.heap ids := by
      apply valsOf_congr
      intro i hi
      rw [show nodeVal h2 i = nodeVal h1 i from nodeVal_setNext _ _ _ _]
      simp [nodeVal, hn1 i hi]
    rw [hvals]
    simp [valsOf, nodeVal, hgn2]

theorem pop_empty {q : Queue T} (hr : Rep q []) : pop q = (q, Option.none) := by
  have hfr : q._front = Option.none := isChainSeg_nil.1 hr.1
  simp [pop, hfr]

theorem pop_cons {q : Queue T} {a : Nat} {rest : List Nat}
    (hr : Rep q (a :: rest)) :
    Rep (pop q).1 rest ∧
      ∃ nd, q.heap[a]? = Option.some nd ∧
        (pop q).2 = Option.some nd.value ∧
        toArray (pop q).1 = valsOf q.heap rest := by
  obtain ⟨hc, hnd, hsz, hbk⟩ := hr
  rcases isChainSeg_cons.1 hc with ⟨hfr, nd, hnda, hrest⟩
  have hndrest : rest.Nodup := (List.nodup_cons.1 hnd).2
  cases hnx : nd.next with
  | none =>
    have hrest0 : rest = [] := by
      cases rest with
      | nil => rfl
      | cons r rest2 =>
        rw [hnx] at hrest
        rcases isChainSeg_cons.1 hrest with ⟨habs, _⟩
        exact absurd habs (by simp)
    subst hrest0
    have hrep' : Rep (pop q).1 [] := by
      refine ⟨?_, List.nodup_nil, ?_, ?_⟩
      · simp [pop, hfr, hnda, hnx, isChainSeg_nil]
      · simp only [pop, hfr, hnda, hnx]
        simp only [List.length_cons, List.length_nil] at hsz
        simp [hsz]
      · simp [pop, hfr, hnda, hnx]
    refine ⟨hrep', nd, hnda, ?_, ?_⟩
    · simp [pop, hfr, hnda, hnx]
    · simpa using hrep'.toArray_eq
  | some j =>
    have hrep' : Rep (pop q).1 rest := by
      refine ⟨?_, hndrest, ?_, ?_⟩
      · rw [hnx] at hrest
        simpa [pop, hfr, hnda, hnx] using hrest
      · simp only [pop, hfr, hnda, hnx]
        simp only [List.length_cons] at hsz
        simp [hsz]
      · simp only [pop, hfr, hnda, hnx]
        rw [hbk]
        cases rest with
        | nil =>
          rw [hnx] at hrest
          exact absurd (isChainSeg_nil.1 hrest) (by simp)
        | cons r rest2 => simp
    refine ⟨hrep', nd, hnda, ?_, ?_⟩
    · simp [pop, hfr, hnda, hnx]
    · rw [hrep'.toArray_eq]
      congr 1
      simp [pop, hfr, hnda, hnx]

theorem clear_rep (q : Queue T) : Rep (clear q) [] :=
  ⟨rfl, List.nodup_nil, rfl, rfl⟩

theorem foldl_push_rep (l : List T) :
    ∀ (q : Queue T) (ids : List Nat), Rep q ids →
      ∃ ids', Rep (l.foldl push q) ids' ∧
        toArray (l.foldl push q) = toArray q ++ l := by
  induction l with
  | nil => exact fun q ids hr => ⟨ids, hr, by simp⟩
  | cons v l ih =>
    intro q ids hr
    obtain ⟨hrep1, harr1⟩ := push_rep hr v
    obtain ⟨ids', hrep', harr'⟩ := ih (push q v) _ hrep1
    exact ⟨ids', hrep', by rw [List.foldl_cons] at *; rw [harr', harr1]; simp⟩

theorem ofList_rep (l : List T) :
    ∃ ids, Rep (ofList l) ids ∧ toArray (ofList l) = l := by
  obtain ⟨ids, hrep, harr⟩ := foldl_push_rep l emptyQueue [] emptyQueue_rep
  exact ⟨ids, hrep, by simpa using harr⟩

theorem drain_rep {q : Queue T} {ids : List Nat} (hr : Rep q ids) :
    drain ids.length q = toArray q := by
  induction ids generalizing q with
  | nil => simp [drain, Rep.toArray_eq hr]
  | cons a rest ih =>
    obtain ⟨hrep2, nd, hnda, hv, harr2⟩ := pop_cons hr
    rcases hpop : pop q with ⟨q2, r⟩
    rw [hpop] at hv harr2 hrep2
    simp only at hv harr2 hrep2
    subst hv
    simp only [List.length_cons, drain, hpop]
    rw [ih hrep2, harr2, hr.toArray_eq, valsOf_cons hnda]

/-! ### `remove` -/

theorem getLast?_cons_or (a : Nat) (rest : List Nat) (prev : Option Nat) :
    (a :: rest).getLast?.or prev = rest.getLast?.or (Option.some a) := by
  rw [show (a :: rest) = [a] ++ rest from rfl, List.getLast?_append]
  cases rest.getLast? <;> simp

theorem removeLoop_no_match [BEq T] {x : T} {h : List (Node T)}
    {ids : List Nat} {st : Option Nat}
    (hc : isChainSeg h st ids Option.none = true)
    (hnm : ∀ v ∈ valsOf h ids, (v == x) = false)
    (sz : Int) (fr bk prev : Option Nat) {fuel : Nat} (hf : ids.length ≤ fuel) :
    removeLoop x fuel h sz fr bk prev st = (h, sz, fr, bk, false) := by
  induction ids generalizing st prev fuel with
  | nil =>
    have := isChainSeg_nil.1 hc
    subst this
    cases fuel <;> rfl
  | cons a rest ih =>
    rcases isChainSeg_cons.1 hc with ⟨hst, nd, hnda, hrest⟩
    subst hst
    cases fuel with
    | zero => simp at hf
    | succ f =>
      have hvm : (nd.value == x) = false :=
        hnm nd.value (by rw [valsOf_cons hnda]; simp)
      simp only [removeLoop, hnda, hvm]
      exact ih hrest (fun v hv => hnm v (by rw [valsOf_cons hnda]; simp [hv]))
        _ (by simpa using hf)

theorem removeLoop_scan [BEq T] {x : T} {h : List (Node T)}
    {pre : List Nat} {st stM : Option Nat}
    (hc : isChainSeg h st pre stM = true)
    (hnm : ∀ v ∈ valsOf h pre, (v == x) = false)
    (sz : Int) (fr bk prev : Option Nat) (fuel2 : Nat) :
    removeLoop x (pre.length + fuel2) h sz fr bk prev st =
      removeLoop x fuel2 h sz fr bk (pre.getLast?.or prev) stM := by
  induction pre generalizing st prev with
  | nil =>
    have := isChainSeg_nil.1 hc
    subst this
    simp
  | cons a rest ih =>
    rcases isChainSeg_cons.1 hc with ⟨hst, nd, hnda, hrest⟩
    subst hst
    have hvm : (nd.value == x) = false :=
      hnm nd.value (by rw [valsOf_cons hnda]; simp)
    rw [show (a :: rest).length + fuel2 = (rest.length + fuel2) + 1 by simp; omega]
    simp only [removeLoop, hnda, hvm]
    rw [ih hrest (fun v hv => hnm v (by rw [valsOf_cons hnda]; simp [hv])) _,
      getLast?_cons_or]
    rfl

theorem chain_split_first_match [BEq T] (x : T) {h : List (Node T)}
    {ids : List Nat} (hv : ∀ i ∈ ids, (h[i]?).isSome) :
    (∀ v ∈ valsOf h ids, (v == x) = false) ∨
      ∃ pre m post ndm, ids = pre ++ m :: post ∧
        (∀ v ∈ valsOf h pre, (v == x) = false) ∧
        h[m]? = Option.some ndm ∧ (ndm.value == x) = true := by
  induction ids with
  | nil => left; simp
  | cons a rest ih =>
    rcases Option.isSome_iff_exists.1 (hv a (by simp)) with ⟨nd, hnda⟩
    cases hvm : nd.value == x with
    | true => exact Or.inr ⟨[], a, rest, nd, rfl, by simp, hnda, hvm⟩
    | false =>
      rcases ih (fun j hj => hv j (List.mem_cons_of_mem _ hj)) with hall | hsplit
      · left
        intro v hvmem
        rw [valsOf_cons hnda] at hvmem
        rcases List.mem_cons.1 hvmem with h1 | h2
        · subst h1; exact hvm
        · exact hall v h2
      · rcases hsplit with ⟨pre, m, post, ndm, hids, hpre, hm, hmx⟩
        refine Or.inr ⟨a :: pre, m, post, ndm, by simp [hids], ?_, hm, hmx⟩
        intro v hvmem
        rw [valsOf_cons hnda] at hvmem
        rcases List.mem_cons.1 hvmem with h1 | h2
        · subst h1; exact hvm
        · exact hpre v h2

theorem remove_of_no_match [BEq T] {q : Queue T} {ids : List Nat}
    (hr : Rep q ids) {x : T}
    (hnm : ∀ v ∈ toArray q, (v == x) = false) :
    remove q x = (q, false) := by
  obtain ⟨hc, hnd, hsz, hbk⟩ := hr
  rw [Rep.toArray_eq ⟨hc, hnd, hsz, hbk⟩] at hnm
  unfold remove
  rw [removeLoop_no_match hc hnm _ _ _ _ (chain_length_le hc hnd)]

theorem remove_of_match [BEq T] {q : Queue T} {pre post : List Nat} {m : Nat}
    {ndm : Node T} {x : T} (hr : Rep q (pre ++ m :: post))
    (hnm : ∀ v ∈ valsOf q.heap pre, (v == x) = false)
    (hm : q.heap[m]? = Option.some ndm) (hmx : (ndm.value == x) = true) :
    Rep (remove q x).1 (pre ++ post) ∧ (remove q x).2 = true ∧
      toArray (remove q x).1 = valsOf q.heap pre ++ valsOf q.heap post := by
  obtain ⟨hc, hnd, hsz, hbk⟩ := hr
  have hlen := chain_length_le hc hnd
  have hmpre : m ∉ pre := by
    have hnd' := hnd
    rw [List.nodup_append] at hnd'
    intro hmem
    exact hnd'.2.2 hmem (by simp)
  have hndpost : (pre ++ post).Nodup :=
    ((List.sublist_cons_self m post).append_left pre).nodup hnd
  -- decompose the chain at m
  rcases isChainSeg_append.1 hc with ⟨mid, hcpre, hcrest⟩
  rcases isChainSeg_cons.1 hcrest with ⟨hmid, ndm', hm', hcpost⟩
  rw [hm] at hm'
  have hv : ndm = ndm' := by injection hm'
  rw [← hv] at hcpost
  subst hmid
  -- fuel bookkeeping for the scan over `pre`
  have hprelen : pre.length ≤ q.heap.length := by
    simp only [List.length_append, List.length_cons] at hlen; omega
  have hfuel : pre.length + (q.heap.length - pre.length) = q.heap.length := by
    omega
  rcases hf2 : q.heap.length - pre.length with _ | f2
  · exfalso
    simp only [List.length_append, List.length_cons] at hlen
    omega
  rcases List.eq_nil_or_concat pre with hpre0 | ⟨predrop, p, hpre⟩
  · -- the first match is at the head: `this._front = link.next`
    subst hpre0
    have hfr : q._front = Option.some m := isChainSeg_nil.1 hcpre
    have hrun : remove q x =
        ((⟨q.heap, q._size - 1, ndm.next,
          if ndm.next = Option.none then Option.none else q._back⟩ : Queue T),
         true) := by
      unfold remove
      rw [← hfuel, hf2, removeLoop_scan hcpre hnm q._size q._front q._back
        Option.none _]
      simp only [List.getLast?_nil, Option.none_or, removeLoop, hm, hmx]
      rfl
    rw [hrun]
    have hrep2 : Rep (⟨q.heap, q._size - 1, ndm.next,
        if ndm.next = Option.none then Option.none else q._back⟩ : Queue T)
        post := by
      refine ⟨hcpost, ?_, ?_, ?_⟩
      · exact (List.nodup_cons.1 (by simpa using hnd)).2
      · simp only [List.nil_append, List.length_cons] at hsz
        simp only [hsz]
        push_cast
        ring
      · cases hnx : ndm.next with
        | none =>
          have hpost0 : post = [] := by
            cases post with
            | nil => rfl
            | cons r rest2 =>
              rw [hnx] at hcpost
              rcases isChainSeg_cons.1 hcpost with ⟨habs, _⟩
              exact absurd habs (by simp)
          subst hpost0
          simp
        | some j =>
          cases post with
          | nil =>
            rw [hnx] at hcpost
            exact absurd (isChainSeg_nil.1 hcpost) (by simp)
          | cons r rest2 =>
            rw [if_neg (show ¬(Option.some j = Option.none) by simp), hbk]
            simp
    refine ⟨hrep2, rfl, ?_⟩
    rw [hrep2.toArray_eq]
    simp
  · -- the first match is after `prev = p`: `prev.next = link.next`
    rw [List.concat_eq_append] at hpre
    subst hpre
    have hpl : (predrop ++ [p]).getLast? = Option.some p := List.getLast?_concat _
    -- p is distinct from m, from post, and from predrop
    have hpm : m ≠ p := fun he => hmpre (by rw [he]; simp)
    have hppost : p ∉ post := by
      have hnd' := hnd
      rw [List.nodup_append] at hnd'
      intro hmem
      exact hnd'.2.2 (show p ∈ predrop ++ [p] by simp) (by simp [hmem])
    have hppredrop : p ∉ predrop := by
      have hx : (predrop ++ [p]).Nodup := (List.nodup_append.1 hnd).1
      rw [List.nodup_append] at hx
      intro hmem
      exact hx.2.2 hmem (by simp)
    -- decompose the `pre` chain at its last node p
    rcases isChainSeg_append.1 hcpre with ⟨mid2, hcdrop, hcp⟩
    rcases isChainSeg_cons.1 hcp with ⟨hmid2, ndp, hp, hpnil⟩
    subst hmid2
    have hpnext : ndp.next = Option.some m := isChainSeg_nil.1 hpnil
    -- the store after `prev.next = link.next`
    have hm2 : (setNext q.heap p ndm.next)[m]? = Option.some ndm := by
      rw [getElem?_setNext_ne hpm]
      exact hm
    have hnext2 : nextOf (setNext q.heap p ndm.next) m = ndm.next := by
      unfold nextOf
      rw [hm2]
    have hrun : remove q x =
        ((⟨setNext q.heap p ndm.next, q._size - 1, q._front,
          if ndm.next = Option.none then Option.some p else q._back⟩ : Queue T),
         true) := by
      unfold remove
      rw [← hfuel, hf2, removeLoop_scan hcpre hnm q._size q._front q._back
        Option.none _]
      simp only [hpl, Option.or_none, removeLoop, hm, hmx]
      rw [hnext2]
      rfl
    rw [hrun]
    -- the relinked chain
    have hcdrop2 : isChainSeg (setNext q.heap p ndm.next) q._front predrop
        (Option.some p) = true := by
      rw [isChainSeg_congr (fun i hi =>
        getElem?_setNext_ne (fun he => hppredrop (by rw [← he]; exact hi)) _)]
      exact hcdrop
    have hp2 : (setNext q.heap p ndm.next)[p]? =
        Option.some { ndp with next := ndm.next } :=
      getElem?_setNext_self hp _
    have hcpost2 : isChainSeg (setNext q.heap p ndm.next) ndm.next post
        Option.none = true := by
      rw [isChainSeg_congr (fun i hi =>
        getElem?_setNext_ne (fun he => hppost (by rw [← he]; exact hi)) _)]
      exact hcpost
    have hchain2 : isChainSeg (setNext q.heap p ndm.next) q._front
        (predrop ++ [p] ++ post) Option.none = true := by
      rw [List.append_assoc]
      apply isChainSeg_append.2
      refine ⟨Option.some p, hcdrop2, ?_⟩
      rw [List.singleton_append, isChainSeg_cons]
      exact ⟨rfl, _, hp2, hcpost2⟩
    have hrep2 : Rep (⟨setNext q.heap p ndm.next, q._size - 1, q._front,
        if ndm.next = Option.none then Option.some p else q._back⟩ : Queue T)
        (predrop ++ [p] ++ post) := by
      refine ⟨hchain2, hndpost, ?_, ?_⟩
      · simp only [List.length_append, List.length_cons] at hsz ⊢
        simp only [hsz]
        push_cast
        ring
      · cases hnx : ndm.next with
        | none =>
          have hpost0 : post = [] := by
            cases post with
            | nil => rfl
            | cons r rest2 =>
              rw [hnx] at hcpost
              rcases isChainSeg_cons.1 hcpost with ⟨habs, _⟩
              exact absurd habs (by simp)
          subst hpost0
          simp
        | some j =>
          cases post with
          | nil =>
            rw [hnx] at hcpost
            exact absurd (isChainSeg_nil.1 hcpost) (by simp)
          | cons r rest2 =>
            rw [if_neg (show ¬(Option.some j = Option.none) by simp), hbk,
              List.getLast?_append_of_ne_nil _ (by simp),
              List.getLast?_append_of_ne_nil _ (by simp)]
            simp
    refine ⟨hrep2, rfl, ?_⟩
    rw [hrep2.toArray_eq]
    have hvals : valsOf (setNext q.heap p ndm.next) (predrop ++ [p] ++ post) =
        valsOf q.heap (predrop ++ [p] ++ post) := by
      apply valsOf_congr
      intro i _
      exact nodeVal_setNext _ _ _ _
    rw [show (⟨setNext q.heap p ndm.next, q._size - 1, q._front,
        if ndm.next = Option.none then Option.some p else q._back⟩ :
          Queue T).heap = setNext q.heap p ndm.next from rfl]
    rw [hvals]
    simp only [valsOf_append, List.append_assoc]

/-! ### `removeAll` -/

/-- Whether the node at index `i` holds a value `=== x`. -/
def matchAt [BEq T] (h : List (Node T)) (x : T) (i : Nat) : Bool :=
  match nodeVal h i with
  | Option.some v => v == x
  | Option.none => false

theorem matchAt_eq [BEq T] {h : List (Node T)} {i : Nat} {nd : Node T}
    (hi : h[i]? = Option.some nd) (x : T) :
    matchAt h x i = (nd.value == x) := by
  simp [matchAt, nodeVal, hi]

theorem matchAt_setNext [BEq T] (h : List (Node T)) (p : Nat)
    (nxt : Option Nat) (x : T) (i : Nat) :
    matchAt (setNext h p nxt) x i = matchAt h x i := by
  simp [matchAt, nodeVal_setNext]

theorem isSome_setNext (h : List (Node T)) (p : Nat) (nxt : Option Nat)
    (i : Nat) : ((setNext h p nxt)[i]?).isSome = (h[i]?).isSome := by
  by_cases hip : i = p
  · subst hip
    cases hx : h[i]? with
    | none => simp [setNext, hx]
    | some nd => simp [getElem?_setNext_self hx]
  · rw [getElem?_setNext_ne hip]

/-- The partially relinked survivor chain: consecutive entries point at
each other (the last entry's pointer is unconstrained). -/
def linked (h : List (Node T)) : List Nat → Bool
  | [] => true
  | [_] => true
  | a :: b :: rest =>
    (match h[a]? with
     | Option.some nd => nd.next == Option.some b
     | Option.none => false) && linked h (b :: rest)

theorem linked_congr {h h' : List (Node T)} {l : List Nat}
    (hag : ∀ i ∈ l, h'[i]? = h[i]?) : linked h' l = linked h l := by
  induction l with
  | nil => rfl
  | cons a rest ih =>
    cases rest with
    | nil => rfl
    | cons b rest2 =>
      have ha : h'[a]? = h[a]? := hag a (by simp)
      simp only [linked, ha]
      rw [ih (fun j hj => hag j (List.mem_cons_of_mem _ hj))]

theorem nodup_getLast?_dropLast {l : List Nat} {p : Nat}
    (hnd : l.Nodup) (hl : l.getLast? = Option.some p) : p ∉ l.dropLast := by
  rcases List.getLast?_eq_some_iff.1 hl with ⟨ys, hys⟩
  subst hys
  rw [List.dropLast_concat]
  rw [List.nodup_append] at hnd
  intro hmem
  exact hnd.2.2 hmem (by simp)

theorem linked_snoc {h : List (Node T)} {kept : List Nat} {p i : Nat}
    (hl : linked h kept = true) (hlast : kept.getLast? = Option.some p)
    (hpd : p ∉ kept.dropLast) (hps : (h[p]?).isSome) :
    linked (setNext h p (Option.some i)) (kept ++ [i]) = true := by
  induction kept with
  | nil => simp at hlast
  | cons a rest ih =>
    cases rest with
    | nil =>
      have hap : a = p := by simpa using hlast
      subst hap
      rcases Option.isSome_iff_exists.1 hps with ⟨nd, hnd⟩
      simp [linked, getElem?_setNext_self hnd]
    | cons b rest2 =>
      have hlast2 : (b :: rest2).getLast? = Option.some p := by
        rw [← hlast, List.getLast?_cons_cons]
      have hap : a ≠ p := by
        simp only [List.dropLast_cons₂, List.mem_cons] at hpd
        exact fun he => hpd (Or.inl he.symm)
      have hpd2 : p ∉ (b :: rest2).dropLast := by
        simp only [List.dropLast_cons₂, List.mem_cons] at hpd
        intro hmem
        exact hpd (Or.inr hmem)
      simp only [linked] at hl
      rw [Bool.and_eq_true] at hl
      rcases hl with ⟨hab, hrest⟩
      have hstep := ih hrest hlast2 hpd2
      simp only [List.cons_append, linked]
      rw [Bool.and_eq_true]
      constructor
      · rw [getElem?_setNext_ne hap]
        cases hx : h[a]? with
        | none => rw [hx] at hab; simp at hab
        | some nd => rw [hx] at hab; exact hab
      · simpa using hstep

theorem linked_chain {h : List (Node T)} {kept : List Nat} {p : Nat}
    (hl : linked h kept = true) (hlast : kept.getLast? = Option.some p)
    (hv : ∀ i ∈ kept, (h[i]?).isSome) (hnd : kept.Nodup) :
    ∀ hd rest, kept = hd :: rest →
      isChainSeg (setNext h p Option.none) (Option.some hd) kept
        Option.none = true := by
  induction kept with
  | nil => intro hd rest h0; cases h0
  | cons a tail ih =>
    intro hd rest h0
    have hahd : a = hd := by injection h0
    subst hahd
    cases tail with
    | nil =>
      have hap : a = p := by simpa using hlast
      subst hap
      rcases Option.isSome_iff_exists.1 (hv a (by simp)) with ⟨nd, hnda⟩
      rw [isChainSeg_cons]
      exact ⟨rfl, _, getElem?_setNext_self hnda _, isChainSeg_nil.2 rfl⟩
    | cons b rest2 =>
      have hlast2 : (b :: rest2).getLast? = Option.some p := by
        rw [← hlast, List.getLast?_cons_cons]
      have hap : a ≠ p := by
        have hmem : p ∈ b :: rest2 := List.mem_of_getLast?_eq_some hlast2
        have := (List.nodup_cons.1 hnd).1
        exact fun he => this (he ▸ hmem)
      simp only [linked] at hl
      rw [Bool.and_eq_true] at hl
      rcases hl with ⟨hab, hrest⟩
      rcases Option.isSome_iff_exists.1 (hv a (by simp)) with ⟨nd, hnda⟩
      rw [hnda] at hab
      have hnext : nd.next = Option.some b := by simpa using hab
      rw [isChainSeg_cons]
      refine ⟨rfl, nd, ?_, ?_⟩
      · rw [getElem?_setNext_ne hap]
        exact hnda
      · rw [hnext]
        exact ih hrest hlast2 (fun j hj => hv j (List.mem_cons_of_mem _ hj))
          (List.nodup_cons.1 hnd).2 b rest2 rfl

theorem countP_add_filter_length {α : Type} (p : α → Bool) (l : List α) :
    l.countP p + (l.filter (fun i => ! p i)).length = l.length := by
  induction l with
  | nil => rfl
  | cons a rest ih =>
    cases hx : p a <;>
      simp [List.countP_cons, List.filter_cons, hx, ← ih] <;> omega

theorem countP_vals [BEq T] (x : T) {h : List (Node T)} {ids : List Nat}
    (hv : ∀ i ∈ ids, (h[i]?).isSome) :
    (valsOf h ids).countP (fun v => v == x) =
      ids.countP (fun i => matchAt h x i) := by
  induction ids with
  | nil => rfl
  | cons a rest ih =>
    rcases Option.isSome_iff_exists.1 (hv a (by simp)) with ⟨nd, hnda⟩
    rw [valsOf_cons hnda]
    simp only [List.countP_cons, matchAt_eq hnda]
    rw [ih (fun j hj => hv j (List.mem_cons_of_mem _ hj))]

theorem valsOf_filter [BEq T] (x : T) {h : List (Node T)} {ids : List Nat}
    (hv : ∀ i ∈ ids, (h[i]?).isSome) :
    valsOf h (ids.filter (fun i => ! matchAt h x i)) =
      (valsOf h ids).filter (fun v => !(v == x)) := by
  induction ids with
  | nil => rfl
  | cons a rest ih =>
    rcases Option.isSome_iff_exists.1 (hv a (by simp)) with ⟨nd, hnda⟩
    have ih2 := ih (fun j hj => hv j (List.mem_cons_of_mem _ hj))
    rw [valsOf_cons hnda]
    simp only [List.filter_cons, matchAt_eq hnda]
    cases hx : nd.value == x with
    | true => simpa [hx] using ih2
    | false =>
      simp only [hx, Bool.not_false, if_true]
      rw [valsOf_cons hnda, ih2]

theorem removeAllLoop_inv [BEq T] (x : T) {h : List (Node T)} {rest : List Nat}
    {st : Option Nat} (hc : isChainSeg h st rest Option.none = true)
    {kept : List Nat} (hlk : linked h kept = true)
    (hvk : ∀ i ∈ kept, (h[i]?).isSome)
    (hdisj : ∀ i ∈ kept, i ∉ rest)
    (hndr : rest.Nodup) (hndk : kept.Nodup)
    (sz : Int) (fr : Option Nat) (cnt : Nat) {fuel : Nat}
    (hf : rest.length ≤ fuel) :
    ∃ H : List (Node T),
      removeAllLoop x fuel h sz fr cnt kept.getLast? st =
        (H, sz - (rest.countP (fun i => matchAt h x i) : Int),
         (match kept.head? with
          | Option.some _ => fr
          | Option.none =>
            match (rest.filter (fun i => ! matchAt h x i)).head? with
            | Option.some k => Option.some k
            | Option.none => fr),
         cnt + rest.countP (fun i => matchAt h x i),
         (kept ++ rest.filter (fun i => ! matchAt h x i)).getLast?) ∧
      (∀ i, nodeVal H i = nodeVal h i) ∧
      H.length = h.length ∧
      linked H (kept ++ rest.filter (fun i => ! matchAt h x i)) = true ∧
      (∀ i ∈ kept ++ rest.filter (fun i => ! matchAt h x i), (H[i]?).isSome) := by
  induction rest generalizing h st kept sz fr cnt fuel with
  | nil =>
    have hst := isChainSeg_nil.1 hc
    subst hst
    refine ⟨h, ?_, fun i => rfl, rfl, by simpa using hlk, by simpa using hvk⟩
    cases fuel <;> cases kept <;> simp [removeAllLoop]
  | cons i rest' ih =>
    rcases isChainSeg_cons.1 hc with ⟨hst, nd, hi, hrest⟩
    subst hst
    cases fuel with
    | zero => simp at hf
    | succ f =>
      have hf' : rest'.length ≤ f := by simpa using hf
      have hndr' : rest'.Nodup := (List.nodup_cons.1 hndr).2
      have hinr' : i ∉ rest' := (List.nodup_cons.1 hndr).1
      have hmi : matchAt h x i = (nd.value == x) := matchAt_eq hi x
      cases hvx : nd.value == x with
      | true =>
        have hfc : List.filter (fun j => ! matchAt h x j) (i :: rest') =
            List.filter (fun j => ! matchAt h x j) rest' := by
          simp [List.filter_cons, hmi, hvx]
        have hcc : List.countP (fun j => matchAt h x j) (i :: rest') =
            List.countP (fun j => matchAt h x j) rest' + 1 := by
          simp [List.countP_cons, hmi, hvx]
        have hstep : removeAllLoop x (f + 1) h sz fr cnt kept.getLast?
            (Option.some i) =
            removeAllLoop x f h (sz - 1) fr (cnt + 1) kept.getLast? nd.next := by
          simp only [removeAllLoop, hi, hvx]
          rfl
        obtain ⟨H, heq, hvals, hlen, hlk', hvk'⟩ :=
          ih hrest hlk hvk
            (fun j hj hm => hdisj j hj (by simp [hm])) hndr' hndk
            (sz - 1) fr (cnt + 1) hf'
        refine ⟨H, ?_, hvals, hlen, ?_, ?_⟩
        · rw [hstep, heq]
          simp only [hfc, hcc, Prod.mk.injEq]
          refine ⟨trivial, ?_, trivial, ?_, trivial⟩
          · push_cast
            ring
          · omega
        · rw [hfc]
          exact hlk'
        · rw [hfc]
          exact hvk'
      | false =>
        have hfc : List.filter (fun j => ! matchAt h x j) (i :: rest') =
            i :: List.filter (fun j => ! matchAt h x j) rest' := by
          simp [List.filter_cons, hmi, hvx]
        have hcc : List.countP (fun j => matchAt h x j) (i :: rest') =
            List.countP (fun j => matchAt h x j) rest' := by
          simp [List.countP_cons, hmi, hvx]
        cases hkl : kept.getLast? with
        | none =>
          have hkept0 : kept = [] := List.getLast?_eq_none_iff.1 hkl
          subst hkept0
          have hstep : removeAllLoop x (f + 1) h sz fr cnt Option.none
              (Option.some i) =
              removeAllLoop x f h sz (Option.some i) cnt (Option.some i)
                nd.next := by
            simp only [removeAllLoop, hi, hvx]
            rfl
          obtain ⟨H, heq, hvals, hlen, hlk', hvk'⟩ :=
            ih hrest (show linked h [i] = true from rfl)
              (fun j hj => by
                have hji : j = i := by simpa using hj
                subst hji
                simp [hi])
              (fun j hj => by
                have hji : j = i := by simpa using hj
                subst hji
                exact hinr')
              hndr' (by simp) sz (Option.some i) cnt hf'
          simp only [show (([i] : List Nat)).getLast? = Option.some i from rfl]
            at heq
          refine ⟨H, ?_, hvals, hlen, ?_, ?_⟩
          · rw [hstep, heq]
            simp [hfc, hcc]
          · rw [hfc]
            simpa using hlk'
          · rw [hfc]
            intro j hj
            apply hvk'
            simpa using hj
        | some p =>
          rcases kept with _ | ⟨k0, ktl⟩
          · simp at hkl
          have hpmem : p ∈ k0 :: ktl := List.mem_of_getLast?_eq_some hkl
          have hpnr : p ∉ i :: rest' := hdisj p hpmem
          have hpi : p ≠ i := fun he => hpnr (by simp [he])
          have hpr' : p ∉ rest' := fun hm => hpnr (by simp [hm])
          have hinkept : i ∉ k0 :: ktl := fun hik => (hdisj i hik) (by simp)
          have hstep : removeAllLoop x (f + 1) h sz fr cnt (Option.some p)
              (Option.some i) =
              removeAllLoop x f (setNext h p (Option.some i)) sz fr cnt
                (Option.some i) (nextOf (setNext h p (Option.some i)) i) := by
            simp only [removeAllLoop, hi, hvx]
            rfl
          have hi2 : (setNext h p (Option.some i))[i]? = Option.some nd := by
            rw [getElem?_setNext_ne (fun he => hpi he.symm)]
            exact hi
          have hnext2 : nextOf (setNext h p (Option.some i)) i = nd.next := by
            unfold nextOf
            rw [hi2]
          have hrest2 : isChainSeg (setNext h p (Option.some i)) nd.next rest'
              Option.none = true := by
            rw [isChainSeg_congr (fun j hj => getElem?_setNext_ne
              (fun he => hpr' (by rw [← he]; exact hj)) _)]
            exact hrest
          have hlk2 : linked (setNext h p (Option.some i))
              ((k0 :: ktl) ++ [i]) = true :=
            linked_snoc hlk hkl (nodup_getLast?_dropLast hndk hkl) (hvk p hpmem)
          have hvk2 : ∀ j ∈ (k0 :: ktl) ++ [i],
              (((setNext h p (Option.some i)))[j]?).isSome := by
            intro j hj
            rw [isSome_setNext]
            rcases List.mem_append.1 hj with h1 | h2
            · exact hvk j h1
            · have hji : j = i := by simpa using h2
              subst hji
              simp [hi]
          have hdisj2 : ∀ j ∈ (k0 :: ktl) ++ [i], j ∉ rest' := by
            intro j hj
            rcases List.mem_append.1 hj with h1 | h2
            · exact fun hm => hdisj j h1 (by simp [hm])
            · have hji : j = i := by simpa using h2
              subst hji
              exact hinr'
          have hndk2 : ((k0 :: ktl) ++ [i]).Nodup := by
            rw [List.nodup_append]
            refine ⟨hndk, by simp, ?_⟩
            intro a ha hb
            have hai : a = i := by simpa using hb
            subst hai
            exact hinkept ha
          obtain ⟨H, heq, hvals, hlen, hlk', hvk'⟩ :=
            ih hrest2 hlk2 hvk2 hdisj2 hndr' hndk2 sz fr cnt hf'
          rw [List.getLast?_concat] at heq
          simp only [matchAt_setNext] at heq hlk' hvk'
          refine ⟨H, ?_, ?_, ?_, ?_, ?_⟩
          · rw [hstep, hnext2, heq]
            simp [hfc, hcc, List.append_assoc]
          · intro j
            rw [hvals j, nodeVal_setNext]
          · rw [hlen, length_setNext]
          · rw [hfc]
            simpa [List.append_assoc] using hlk'
          · rw [hfc]
            intro j hj
            apply hvk'
            simpa [List.append_assoc] using hj

theorem listFrom_none (h : List (Node T)) (fuel : Nat) :
    listFrom h fuel Option.none = [] := by
  cases fuel <;> rfl

theorem removeAll_rep [BEq T] {q : Queue T} {ids : List Nat}
    (hr : Rep q ids) (x : T) :
    ∃ ids', Rep (removeAll q x).1 ids' ∧
      toArray (removeAll q x).1 = (toArray q).filter (fun v => !(v == x)) ∧
      (removeAll q x).2 = (toArray q).countP (fun v => v == x) := by
  obtain ⟨hc, hnd, hsz, hbk⟩ := hr
  have hvids := isChainSeg_valid hc
  have hlen := chain_length_le hc hnd
  have harr : toArray q = valsOf q.heap ids :=
    Rep.toArray_eq ⟨hc, hnd, hsz, hbk⟩
  have hcf := countP_add_filter_length (fun i => matchAt q.heap x i) ids
  obtain ⟨H, heq, hvals, hlenH, hlk', hvk'⟩ :=
    removeAllLoop_inv x hc (show linked q.heap ([] : List Nat) = true from rfl)
      (by intro j hj; simp at hj) (by intro j hj; simp at hj)
      hnd List.nodup_nil q._size q._front 0 hlen
  simp only [List.getLast?_nil, List.nil_append] at heq hlk' hvk'
  have hcnt : (valsOf q.heap ids).countP (fun v => v == x) =
      ids.countP (fun i => matchAt q.heap x i) := countP_vals x hvids
  cases hgl : (ids.filter (fun i => ! matchAt q.heap x i)).getLast? with
  | none =>
    have hkeep0 : ids.filter (fun i => ! matchAt q.heap x i) = [] :=
      List.getLast?_eq_none_iff.1 hgl
    rw [hkeep0] at heq
    have hresult : removeAll q x =
        ((⟨H, q._size - (ids.countP (fun i => matchAt q.heap x i) : Int),
          Option.none, Option.none⟩ : Queue T),
         0 + ids.countP (fun i => matchAt q.heap x i)) := by
      simp only [removeAll, heq, List.getLast?_nil, List.head?_nil]
    rw [hresult]
    refine ⟨[], ⟨isChainSeg_nil.2 rfl, List.nodup_nil, ?_, rfl⟩, ?_, ?_⟩
    · rw [hkeep0] at hcf
      simp only [List.length_nil, Nat.add_zero] at hcf
      simp only [List.length_nil, Nat.cast_zero]
      rw [hsz, hcf]
      ring
    · rw [show toArray (⟨H, q._size -
          (ids.countP (fun i => matchAt q.heap x i) : Int),
          Option.none, Option.none⟩ : Queue T) =
          listFrom H H.length Option.none from rfl, listFrom_none]
      rw [harr, ← valsOf_filter x hvids, hkeep0, valsOf_nil]
    · rw [harr, hcnt]
      simp
  | some p =>
    have hkne : ids.filter (fun i => ! matchAt q.heap x i) ≠ [] := by
      intro h0
      rw [h0] at hgl
      simp at hgl
    rcases hkl2 : ids.filter (fun i => ! matchAt q.heap x i) with _ | ⟨k0, ktail⟩
    · exact absurd hkl2 hkne
    rw [hkl2] at heq hlk' hvk' hgl
    have hresult : removeAll q x =
        ((⟨setNext H p Option.none,
          q._size - (ids.countP (fun i => matchAt q.heap x i) : Int),
          Option.some k0, Option.some p⟩ : Queue T),
         0 + ids.countP (fun i => matchAt q.heap x i)) := by
      simp only [removeAll, heq, hgl, List.head?_nil, List.head?_cons]
    rw [hresult]
    have hndk : (k0 :: ktail).Nodup := by
      rw [← hkl2]
      exact hnd.filter _
    have hchain : isChainSeg (setNext H p Option.none) (Option.some k0)
        (k0 :: ktail) Option.none = true :=
      linked_chain hlk' hgl hvk' hndk k0 ktail rfl
    have hlensz : (k0 :: ktail).length +
        ids.countP (fun i => matchAt q.heap x i) = ids.length := by
      rw [← hkl2]
      omega
    refine ⟨k0 :: ktail, ⟨hchain, hndk, ?_, ?_⟩, ?_, ?_⟩
    · simp only
      rw [hsz]
      push_cast [← hlensz]
      ring
    · simp only
      exact hgl.symm
    · have hrep2 : Rep (⟨setNext H p Option.none,
          q._size - (ids.countP (fun i => matchAt q.heap x i) : Int),
          Option.some k0, Option.some p⟩ : Queue T) (k0 :: ktail) := by
        refine ⟨hchain, hndk, ?_, ?_⟩
        · simp only
          rw [hsz]
          push_cast [← hlensz]
          ring
        · simp only
          exact hgl.symm
      rw [hrep2.toArray_eq]
      have hv1 : valsOf (setNext H p Option.none) (k0 :: ktail) =
          valsOf H (k0 :: ktail) :=
        valsOf_congr (fun i _ => nodeVal_setNext _ _ _ _)
      have hv2 : valsOf H (k0 :: ktail) = valsOf q.heap (k0 :: ktail) :=
        valsOf_congr (fun i _ => hvals i)
      rw [show (⟨setNext H p Option.none,
          q._size - (ids.countP (fun i => matchAt q.heap x i) : Int),
          Option.some k0, Option.some p⟩ : Queue T).heap =
          setNext H p Option.none from rfl]
      rw [hv1, hv2, ← hkl2, valsOf_filter x hvids, harr]
    · rw [harr, hcnt]
      simp

/-! ### Traversals -/

theorem someLoop_eq (p : T → Nat → Bool) (h : List (Node T)) :
    ∀ (fuel : Nat) (i0 : Nat) (st : Option Nat),
      someLoop p fuel h i0 st =
        (h, ((listFrom h fuel st).enumFrom i0).any (fun iv => p iv.2 iv.1)) := by
  intro fuel
  induction fuel with
  | zero => intro i0 st; rfl
  | succ f ih =>
    intro i0 st
    cases st with
    | none => rfl
    | some n =>
      cases hx : h[n]? with
      | none => simp [someLoop, listFrom, hx]
      | some nd =>
        simp only [someLoop, listFrom, hx, List.enumFrom, List.any_cons]
        cases hp : p nd.value i0 with
        | true => simp [hp]
        | false => simp [hp, ih]

theorem everyLoop_eq (p : T → Nat → Bool) (h : List (Node T)) :
    ∀ (fuel : Nat) (i0 : Nat) (st : Option Nat),
      everyLoop p fuel h i0 st =
        (h, ((listFrom h fuel st).enumFrom i0).all (fun iv => p iv.2 iv.1)) := by
  intro fuel
  induction fuel with
  | zero => intro i0 st; rfl
  | succ f ih =>
    intro i0 st
    cases st with
    | none => rfl
    | some n =>
      cases hx : h[n]? with
      | none => simp [everyLoop, listFrom, hx]
      | some nd =>
        simp only [everyLoop, listFrom, hx, List.enumFrom, List.all_cons]
        cases hp : p nd.value i0 with
        | true => simp [hp, ih]
        | false => simp [hp]

theorem forEachLoop_eq (f : T → Nat → Option U) (h : List (Node T)) :
    ∀ (fuel : Nat) (i0 : Nat) (st : Option Nat),
      forEachLoop f fuel h i0 st =
        (h, ((listFrom h fuel st).enumFrom i0).findSome?
          (fun iv => f iv.2 iv.1)) := by
  intro fuel
  induction fuel with
  | zero => intro i0 st; rfl
  | succ f2 ih =>
    intro i0 st
    cases st with
    | none => rfl
    | some n =>
      cases hx : h[n]? with
      | none => simp [forEachLoop, listFrom, hx]
      | some nd =>
        simp only [forEachLoop, listFrom, hx, List.enumFrom,
          List.findSome?_cons]
        cases hr : f nd.value i0 with
        | none => simp [hr, ih]
        | some r => simp [hr]

theorem someRun_fst (q : Queue T) (p : T → Nat → Bool) :
    (someRun q p).1 = q := by
  unfold someRun
  rw [someLoop_eq]

theorem everyRun_fst (q : Queue T) (p : T → Nat → Bool) :
    (everyRun q p).1 = q := by
  unfold everyRun
  rw [everyLoop_eq]

theorem forEachRun_fst (q : Queue T) (f : T → Nat → Option U) :
    (forEachRun q f).1 = q := by
  unfold forEachRun
  rw [forEachLoop_eq]

theorem someRun_snd (q : Queue T) (p : T → Nat → Bool) :
    (someRun q p).2 = (toArray q).enum.any (fun iv => p iv.2 iv.1) := by
  unfold someRun toArray
  rw [someLoop_eq]
  rfl

theorem everyRun_snd (q : Queue T) (p : T → Nat → Bool) :
    (everyRun q p).2 = (toArray q).enum.all (fun iv => p iv.2 iv.1) := by
  unfold everyRun toArray
  rw [everyLoop_eq]
  rfl

theorem forEachRun_snd (q : Queue T) (f : T → Nat → Option U) :
    (forEachRun q f).2 =
      (toArray q).enum.findSome? (fun iv => f iv.2 iv.1) := by
  unfold forEachRun toArray
  rw [forEachLoop_eq]
  rfl

theorem any_agree {α : Type} (P Q : α → Bool) (l : List α)
    (hag : ∀ iv ∈ l.take (l.findIdx P + 1), Q iv = P iv) :
    l.any Q = l.any P := by
  induction l with
  | nil => rfl
  | cons a rest ih =>
    have hmem : a ∈ (a :: rest).take ((a :: rest).findIdx P + 1) := by
      rw [List.take_succ_cons]
      simp
    have ha : Q a = P a := hag a hmem
    cases hpa : P a with
    | true => simp [List.any_cons, ha, hpa]
    | false =>
      simp only [List.any_cons, ha, hpa, Bool.false_or]
      apply ih
      intro iv hiv
      apply hag
      have hidx : (a :: rest).take ((a :: rest).findIdx P + 1) =
          a :: rest.take (rest.findIdx P + 1) := by
        rw [List.findIdx_cons, hpa]
        simp [List.take_succ_cons]
      rw [hidx]
      exact List.mem_cons_of_mem _ hiv

theorem all_agree {α : Type} (P Q : α → Bool) (l : List α)
    (hag : ∀ iv ∈ l.take (l.findIdx (fun iv => ! P iv) + 1), Q iv = P iv) :
    l.all Q = l.all P := by
  induction l with
  | nil => rfl
  | cons a rest ih =>
    have hmem : a ∈ (a :: rest).take
        ((a :: rest).findIdx (fun iv => ! P iv) + 1) := by
      rw [List.take_succ_cons]
      simp
    have ha : Q a = P a := hag a hmem
    cases hpa : P a with
    | false => simp [List.all_cons, ha, hpa]
    | true =>
      simp only [List.all_cons, ha, hpa, Bool.true_and]
      apply ih
      intro iv hiv
      apply hag
      have hidx : (a :: rest).take
          ((a :: rest).findIdx (fun iv => ! P iv) + 1) =
          a :: rest.take (rest.findIdx (fun iv => ! P iv) + 1) := by
        rw [List.findIdx_cons]
        simp only [hpa, Bool.not_true, cond_false]
        simp [List.take_succ_cons]
      rw [hidx]
      exact List.mem_cons_of_mem _ hiv

theorem findSome_agree {α β : Type} (F G : α → Option β) (l : List α)
    (hag : ∀ iv ∈ l.take (l.findIdx (fun iv => (F iv).isSome) + 1),
      G iv = F iv) :
    l.findSome? G = l.findSome? F := by
  induction l with
  | nil => rfl
  | cons a rest ih =>
    have hmem : a ∈ (a :: rest).take
        ((a :: rest).findIdx (fun iv => (F iv).isSome) + 1) := by
      rw [List.take_succ_cons]
      simp
    have ha : G a = F a := hag a hmem
    cases hfa : F a with
    | some r => simp [List.findSome?_cons, ha, hfa]
    | none =>
      simp only [List.findSome?_cons, ha, hfa]
      apply ih
      intro iv hiv
      apply hag
      have hidx : (a :: rest).take
          ((a :: rest).findIdx (fun iv => (F iv).isSome) + 1) =
          a :: rest.take (rest.findIdx (fun iv => (F iv).isSome) + 1) := by
        rw [List.findIdx_cons]
        simp only [hfa, Option.isSome_none, cond_false]
        simp [List.take_succ_cons]
      rw [hidx]
      exact List.mem_cons_of_mem _ hiv

/-! ### Remaining helper lemmas -/

theorem wf_ofList (l : List T) : WF (ofList l) := by
  obtain ⟨ids, hrep, _⟩ := ofList_rep l
  exact ⟨ids, hrep⟩

theorem Rep.back_next_none {q : Queue T} {ids : List Nat} (hr : Rep q ids) :
    ∀ b, q._back = Option.some b → nextOf q.heap b = Option.none := by
  obtain ⟨hc, hnd, hsz, hbk⟩ := hr
  intro b hb
  rw [hb] at hbk
  rcases List.getLast?_eq_some_iff.1 hbk.symm with ⟨ys, hys⟩
  rw [hys] at hc
  rcases isChainSeg_append.1 hc with ⟨mid, _, hlast⟩
  rcases isChainSeg_cons.1 hlast with ⟨hmid, ndb, hndb, hnil⟩
  have hnn := isChainSeg_nil.1 hnil
  unfold nextOf
  rw [hndb]
  exact hnn

theorem eraseP_first {α : Type} (p : α → Bool) (l1 l2 : List α) (a : α)
    (h1 : ∀ v ∈ l1, p v = false) (ha : p a = true) :
    (l1 ++ a :: l2).eraseP p = l1 ++ l2 := by
  induction l1 with
  | nil => simp [List.eraseP_cons_of_pos ha]
  | cons b rest ih =>
    have hb : p b = false := h1 b (by simp)
    rw [List.cons_append, List.eraseP_cons_of_neg (by simp [hb]),
      ih (fun v hv => h1 v (List.mem_cons_of_mem _ hv))]
    rfl

/-! ### The claims -/

/-- C1: FIFO order — pushing `v1..vn` in order onto an (empty) queue with
`push` and then calling `pop` n times yields `v1, ..., vn` in order. -/
theorem c1_fifo_order (l : List T) :
    drain l.length (l.foldl push (emptyQueue : Queue T)) = l := by
  obtain ⟨ids, hrep, harr⟩ := foldl_push_rep l emptyQueue [] emptyQueue_rep
  have he : toArray (emptyQueue : Queue T) = [] := rfl
  have hlen : ids.length = l.length := by
    rw [← hrep.length_toArray, harr, he]
    simp
  rw [← hlen, drain_rep hrep, harr, he]
  simp

/-- C2: every operation (construction, `push`, `pop`, `remove`,
`removeAll`, `clear`) preserves the structural invariant, and on a
well-formed queue: `_size` is 0 iff `_front` is null iff `_back` is null,
the chain from `_front` is duplicate-free and reaches null after exactly
`_size` steps, and `_back` is the true last node (its `next` is null). -/
theorem c2_invariant_preservation [BEq T] (q : Queue T) (v x : T)
    (l : List T) (hq : WF q) :
    WF (emptyQueue : Queue T) ∧ WF (ofList l) ∧ WF (push q v) ∧
    WF (pop q).1 ∧ WF (remove q x).1 ∧ WF (removeAll q x).1 ∧
    WF (clear q) ∧
    (size q = 0 ↔ q._front = Option.none) ∧
    (q._front = Option.none ↔ q._back = Option.none) ∧
    (∃ ids, isChainSeg q.heap q._front ids Option.none = true ∧ ids.Nodup ∧
      size q = (ids.length : Int) ∧ q._back = ids.getLast?) ∧
    (∀ b, q._back = Option.some b → nextOf q.heap b = Option.none) := by
  obtain ⟨ids, hrep⟩ := hq
  refine ⟨⟨[], emptyQueue_rep⟩, wf_ofList l, ⟨_, (push_rep hrep v).1⟩,
    ?_, ?_, ?_, ⟨[], clear_rep q⟩, ?_, ?_, ⟨ids, hrep⟩, hrep.back_next_none⟩
  · cases ids with
    | nil => rw [pop_empty hrep]; exact ⟨[], hrep⟩
    | cons a rest => exact ⟨rest, (pop_cons hrep).1⟩
  · rcases chain_split_first_match x (isChainSeg_valid hrep.1) with hall | hsplit
    · rw [remove_of_no_match hrep (by rw [hrep.toArray_eq]; exact hall)]
      exact ⟨ids, hrep⟩
    · rcases hsplit with ⟨pre, m, post, ndm, hids, hpre, hm, hmx⟩
      rw [hids] at hrep
      exact ⟨pre ++ post, (remove_of_match hrep hpre hm hmx).1⟩
  · obtain ⟨ids', hrep', _, _⟩ := removeAll_rep hrep x
    exact ⟨ids', hrep'⟩
  · obtain ⟨hc, hnd, hsz, hbk⟩ := hrep
    cases ids with
    | nil =>
      have hf := isChainSeg_nil.1 hc
      simp [size, hf, hsz]
    | cons a rest =>
      rcases isChainSeg_cons.1 hc with ⟨hf, _, _, _⟩
      constructor
      · intro h0
        exfalso
        rw [size, hsz] at h0
        simp only [List.length_cons] at h0
        push_cast at h0
        omega
      · intro h0
        rw [hf] at h0
        cases h0
  · obtain ⟨hc, hnd, hsz, hbk⟩ := hrep
    cases ids with
    | nil =>
      have hf := isChainSeg_nil.1 hc
      simp [hf, hbk]
    | cons a rest =>
      rcases isChainSeg_cons.1 hc with ⟨hf, _, _, _⟩
      rw [hf, hbk]
      constructor
      · intro h0; cases h0
      · intro h0
        exact absurd (List.getLast?_eq_none_iff.1 h0) (by simp)

/-- C3: `removeAll x` removes exactly the elements `=== x` (keeping the
survivors in order), returns the exact number removed (0 when absent), and
leaves `_size`, `_front`, `_back` describing the filtered chain, with both
pointers null when nothing survives. -/
theorem c3_removeAll_spec [BEq T] (q : Queue T) (x : T) (h : WF q) :
    toArray (removeAll q x).1 = (toArray q).filter (fun v => !(v == x)) ∧
    (removeAll q x).2 = (toArray q).countP (fun v => v == x) ∧
    size (removeAll q x).1 =
      size q - ((toArray q).countP (fun v => v == x) : Int) ∧
    front (removeAll q x).1 =
      ((toArray q).filter (fun v => !(v == x))).head? ∧
    back (removeAll q x).1 =
      ((toArray q).filter (fun v => !(v == x))).getLast? ∧
    ((toArray q).filter (fun v => !(v == x)) = [] →
      (removeAll q x).1._front = Option.none ∧
      (removeAll q x).1._back = Option.none) := by
  obtain ⟨ids, hrep⟩ := h
  obtain ⟨ids', hrep', harr', hcnt'⟩ := removeAll_rep hrep x
  have hlenval := countP_add_filter_length (fun v => v == x) (toArray q)
  refine ⟨harr', hcnt', ?_, ?_, ?_, ?_⟩
  · rw [hrep'.size_eq, harr', hrep.size_eq]
    push_cast [← hlenval]
    try ring
  · rw [hrep'.front_eq, harr']
  · rw [hrep'.back_eq, harr']
  · intro h0
    have hids0 : ids' = [] := by
      have h1 := hrep'.length_toArray
      rw [harr', h0] at h1
      exact List.length_eq_zero.1 h1.symm
    obtain ⟨hc, _, _, hbk⟩ := hrep'
    rw [hids0] at hc hbk
    exact ⟨isChainSeg_nil.1 hc, by simpa using hbk⟩

/-- C4: `remove x` returns false and leaves the queue unchanged when no
element is `=== x`; otherwise it returns true, decreases the size by
exactly 1, and deletes exactly the first matching element. -/
theorem c4_remove_spec [BEq T] (q : Queue T) (x : T) (h : WF q) :
    ((toArray q).any (fun v => v == x) = false → remove q x = (q, false)) ∧
    ((toArray q).any (fun v => v == x) = true →
      (remove q x).2 = true ∧
      size (remove q x).1 = size q - 1 ∧
      toArray (remove q x).1 = (toArray q).eraseP (fun v => v == x)) := by
  obtain ⟨ids, hrep⟩ := h
  constructor
  · intro hno
    apply remove_of_no_match hrep
    intro v hv
    have := List.any_eq_false.1 hno v hv
    cases hvx : v == x with
    | true => exact absurd hvx this
    | false => rfl
  · intro hyes
    rcases chain_split_first_match x (isChainSeg_valid hrep.1) with hall | hsplit
    · exfalso
      rcases List.any_eq_true.1 hyes with ⟨v, hv, hvx⟩
      rw [hrep.toArray_eq] at hv
      exact absurd hvx (by rw [hall v hv]; simp)
    · rcases hsplit with ⟨pre, m, post, ndm, hids, hpre, hm, hmx⟩
      have hrep2 := hrep
      rw [hids] at hrep2
      obtain ⟨hrep', htrue, harr'⟩ := remove_of_match hrep2 hpre hm hmx
      refine ⟨htrue, ?_, ?_⟩
      · rw [hrep'.size_eq, hrep.size_eq, harr', hrep.toArray_eq, hids,
          valsOf_append, valsOf_cons hm]
        simp only [List.length_append, List.length_cons]
        push_cast
        omega
      · rw [harr', hrep.toArray_eq, hids, valsOf_append, valsOf_cons hm]
        rw [eraseP_first _ _ _ _ hpre hmx]

/-- C5: on an empty queue, `front`, `back`, and `pop` all answer the
absent sentinel (`undefined`), and `pop` leaves the state unchanged. -/
theorem c5_empty_queries (q : Queue T) (h : WF q) (h0 : size q = 0) :
    front q = Option.none ∧ back q = Option.none ∧
    pop q = (q, Option.none) := by
  obtain ⟨ids, hrep⟩ := h
  have hids0 : ids = [] := by
    obtain ⟨_, _, hsz, _⟩ := hrep
    rw [size, hsz] at h0
    cases ids with
    | nil => rfl
    | cons a rest =>
      exfalso
      simp only [List.length_cons] at h0
      push_cast at h0
      omega
  subst hids0
  obtain ⟨hc, hnd0, hsz0, hbk⟩ := hrep
  have hf := isChainSeg_nil.1 hc
  exact ⟨by simp [front, hf], by simp [back, hbk],
    pop_empty ⟨hc, hnd0, hsz0, hbk⟩⟩

/-- C6: `forEach` feeds each value with its 0-based index to the callback
in head-to-tail order, returns the first non-`undefined` result (absent
when the chain is exhausted), and its result never depends on what the
callback would answer past that first hit. -/
theorem c6_forEach_spec (q : Queue T) (f g : T → Nat → Option U)
    (h : WF q) :
    (forEachRun q f).2 =
      (toArray q).enum.findSome? (fun iv => f iv.2 iv.1) ∧
    ((∀ iv ∈ (toArray q).enum.take
        ((toArray q).enum.findIdx (fun iv => (f iv.2 iv.1).isSome) + 1),
        g iv.2 iv.1 = f iv.2 iv.1) →
      (forEachRun q g).2 = (forEachRun q f).2) := by
  refine ⟨forEachRun_snd q f, ?_⟩
  intro hag
  rw [forEachRun_snd q g, forEachRun_snd q f]
  exact findSome_agree _ _ _ (fun iv hiv => hag iv hiv)

/-- C7: rebuilding a queue from `toArray` gives an observationally equal
queue — same sequence, size, front and back. -/
theorem c7_round_trip (q : Queue T) (h : WF q) :
    toArray (ofList (toArray q)) = toArray q ∧
    size (ofList (toArray q)) = size q ∧
    front (ofList (toArray q)) = front q ∧
    back (ofList (toArray q)) = back q := by
  obtain ⟨ids, hrep⟩ := h
  obtain ⟨ids2, hrep2, harr2⟩ := ofList_rep (toArray q)
  refine ⟨harr2, ?_, ?_, ?_⟩
  · rw [hrep2.size_eq, hrep.size_eq, harr2]
  · rw [hrep2.front_eq, hrep.front_eq, harr2]
  · rw [hrep2.back_eq, hrep.back_eq, harr2]

/-- C8: `some` answers whether any element (with its 0-based index, in
order) satisfies the predicate and `every` whether all do; each is
insensitive to the predicate's behavior past its short-circuit point
(the first hit for `some`, the first miss for `every`). -/
theorem c8_some_every (q : Queue T) (p p2 : T → Nat → Bool) (h : WF q) :
    (someRun q p).2 = (toArray q).enum.any (fun iv => p iv.2 iv.1) ∧
    (everyRun q p).2 = (toArray q).enum.all (fun iv => p iv.2 iv.1) ∧
    ((∀ iv ∈ (toArray q).enum.take
        ((toArray q).enum.findIdx (fun iv => p iv.2 iv.1) + 1),
        p2 iv.2 iv.1 = p iv.2 iv.1) →
      (someRun q p2).2 = (someRun q p).2) ∧
    ((∀ iv ∈ (toArray q).enum.take
        ((toArray q).enum.findIdx (fun iv => ! p iv.2 iv.1) + 1),
        p2 iv.2 iv.1 = p iv.2 iv.1) →
      (everyRun q p2).2 = (everyRun q p).2) := by
  refine ⟨someRun_snd q p, everyRun_snd q p, ?_, ?_⟩
  · intro hag
    rw [someRun_snd q p2, someRun_snd q p]
    exact any_agree _ _ _ (fun iv hiv => hag iv hiv)
  · intro hag
    rw [everyRun_snd q p2, everyRun_snd q p]
    exact all_agree _ _ _ (fun iv hiv => hag iv hiv)

/-- Spec side of the refinement claim C9: `removeAll` as a fresh filtering
rebuild — a queue constructed anew from the sequence of the queue's
elements not `=== x`. -/
def rebuildRemoveAll [BEq T] (q : Queue T) (x : T) : Queue T :=
  ofList ((toArray q).filter (fun v => !(v == x)))

/-- C9: the in-place relinking `removeAll` is observationally equivalent
to the filtering rebuild: same sequence, size, front and back, and the
returned count is exactly the number of excluded elements. -/
theorem c9_removeAll_refines_rebuild [BEq T] (q : Queue T) (x : T)
    (h : WF q) :
    toArray (removeAll q x).1 = toArray (rebuildRemoveAll q x) ∧
    size (removeAll q x).1 = size (rebuildRemoveAll q x) ∧
    front (removeAll q x).1 = front (rebuildRemoveAll q x) ∧
    back (removeAll q x).1 = back (rebuildRemoveAll q x) ∧
    (removeAll q x).2 + (toArray (rebuildRemoveAll q x)).length =
      (toArray q).length := by
  obtain ⟨ids, hrep⟩ := h
  obtain ⟨ids', hrep', harr', hcnt'⟩ := removeAll_rep hrep x
  obtain ⟨ids2, hrep2, harr2⟩ :=
    ofList_rep ((toArray q).filter (fun v => !(v == x)))
  have hlenval := countP_add_filter_length (fun v => v == x) (toArray q)
  simp only [rebuildRemoveAll]
  refine ⟨?_, ?_, ?_, ?_, ?_⟩
  · rw [harr', harr2]
  · rw [hrep'.size_eq, hrep2.size_eq, harr', harr2]
  · rw [hrep'.front_eq, hrep2.front_eq, harr', harr2]
  · rw [hrep'.back_eq, hrep2.back_eq, harr', harr2]
  · rw [hcnt', harr2]
    omega

/-- C10: the traversals `some`, `every` and `forEach` never mutate the
queue — the state they return is the state they were given, so the size,
front, back and element sequence are unchanged. -/
theorem c10_traversals_pure (q : Queue T) (p : T → Nat → Bool)
    (f : T → Nat → Option U) :
    (someRun q p).1 = q ∧ (everyRun q p).1 = q ∧ (forEachRun q f).1 = q ∧
    toArray (someRun q p).1 = toArray q ∧
    size (someRun q p).1 = size q ∧
    front (someRun q p).1 = front q ∧
    back (someRun q p).1 = back q ∧
    toArray (everyRun q p).1 = toArray q ∧
    size (everyRun q p).1 = size q ∧
    front (everyRun q p).1 = front q ∧
    back (everyRun q p).1 = back q ∧
    toArray (forEachRun q f).1 = toArray q ∧
    size (forEachRun q f).1 = size q ∧
    front (forEachRun q f).1 = front q ∧
    back (forEachRun q f).1 = back q := by
  simp [someRun_fst, everyRun_fst, forEachRun_fst]

/-! ### Witnesses -/

theorem c2_witness :
    WF (ofList [1, 2] : Queue Nat) ∧ WF (push (ofList [1, 2] : Queue Nat) 7) :=
  ⟨wf_ofList _, (c2_invariant_preservation (ofList [1, 2]) 7 2 [5]
    (wf_ofList _)).2.2.1⟩

theorem c3_witness :
    WF (ofList [1, 2, 1] : Queue Nat) ∧
    (removeAll (ofList [1, 2, 1] : Queue Nat) 1).2 =
      (toArray (ofList [1, 2, 1] : Queue Nat)).countP (fun v => v == 1) :=
  ⟨wf_ofList _, (c3_removeAll_spec (ofList [1, 2, 1]) 1 (wf_ofList _)).2.1⟩

theorem c4_witness :
    WF (ofList [42, 43, 44] : Queue Nat) ∧
    toArray (remove (ofList [42, 43, 44] : Queue Nat) 43).1 =
      (toArray (ofList [42, 43, 44] : Queue Nat)).eraseP
        (fun v => v == 43) := by
  refine ⟨wf_ofList _, ?_⟩
  exact ((c4_remove_spec (ofList [42, 43, 44]) 43 (wf_ofList _)).2
    (by decide)).2.2

theorem c5_witness :
    WF (emptyQueue : Queue Nat) ∧ size (emptyQueue : Queue Nat) = 0 ∧
    pop (emptyQueue : Queue Nat) = (emptyQueue, Option.none) :=
  ⟨⟨[], emptyQueue_rep⟩, rfl,
    (c5_empty_queries emptyQueue ⟨[], emptyQueue_rep⟩ rfl).2.2⟩

theorem c6_witness :
    WF (ofList [0, 1, 2, 3] : Queue Nat) ∧
    (forEachRun (ofList [0, 1, 2, 3] : Queue Nat)
      (fun v i => if v == 2 then Option.some (v + i) else Option.none)).2 =
      Option.some 4 := by
  refine ⟨wf_ofList _, ?_⟩
  rw [(c6_forEach_spec (ofList [0, 1, 2, 3])
    (fun v i => if v == 2 then Option.some (v + i) else Option.none)
    (fun v i => if v == 2 then Option.some (v + i) else Option.none)
    (wf_ofList _)).1]
  decide

theorem c7_witness :
    WF (ofList [3, 1, 2] : Queue Nat) ∧
    toArray (ofList (toArray (ofList [3, 1, 2] : Queue Nat))) =
      toArray (ofList [3, 1, 2] : Queue Nat) :=
  ⟨wf_ofList _, (c7_round_trip (ofList [3, 1, 2]) (wf_ofList _)).1⟩

theorem c8_witness :
    WF (ofList [1, 2, 3] : Queue Nat) ∧
    (someRun (ofList [1, 2, 3] : Queue Nat) (fun v _ => v == 2)).2 =
      true := by
  refine ⟨wf_ofList _, ?_⟩
  rw [(c8_some_every (ofList [1, 2, 3]) (fun v _ => v == 2)
    (fun v _ => v == 2) (wf_ofList _)).1]
  decide

theorem c9_witness :
    WF (ofList [1, 2, 1, 3] : Queue Nat) ∧
    toArray (removeAll (ofList [1, 2, 1, 3] : Queue Nat) 1).1 =
      toArray (rebuildRemoveAll (ofList [1, 2, 1, 3] : Queue Nat) 1) :=
  ⟨wf_ofList _,
    (c9_removeAll_refines_rebuild (ofList [1, 2, 1, 3]) 1 (wf_ofList _)).1⟩

end PhosphorQueue
